import Mathlib

/-
  Verification development for the cNFT NIF tree manager.

  The Rust sources embedded here are `src/native/cnftnif/src/setup.rs`
  (TreeManager and its create/mint/transfer operations),
  `src/native/cnftnif/src/utils.rs` (base58 helpers and `convert_nodes`),
  and `src/native/cnftnif/src/lib.rs` (initialization).

  External crates used by the repository (the `bs58` codec, the solana
  `Keypair`, the `mpl-bubblegum` hashers and `get_asset_id`, and the
  `spl-merkle-tree-reference` off-chain tree) are not part of this
  repository; where needed their behaviour is modelled from the spec,
  and each such definition carries a doc comment saying so.

  Machine integers: all sizes here (`usize` indices, byte values) are far
  below overflow in every reachable computation, so they are embedded as
  `Nat`; bytes are `Nat` values < 256 produced by explicit `% 256`.
-/

/- ===== Bytes and modelled hashing ===== -/

/-- The 32-byte zero sentinel: `vec![0; 32]` in `TreeManager::default`. -/
def zero32 : List Nat := List.replicate 32 0

/-- Little-endian byte expansion of a natural number, fixed width `k`. -/
def natToBytesLE : Nat → Nat → List Nat
  | 0, _ => []
  | k + 1, n => n % 256 :: natToBytesLE k (n / 256)

/-- Modelled from the spec: accumulator for a deterministic digest.  The
repository's hashes (keccak-256 via `mpl-bubblegum` and the compression
crates) are external to this repository; §4.1 of the spec only requires a
pure, deterministic, canonical 32-byte digest. -/
def mixFold (l : List Nat) : Nat :=
  l.foldl (fun a b => (a * 269 + b + 1) % (2 ^ 248)) 7

/-- Modelled from the spec: a deterministic 32-byte digest.  The spec
reserves the all-zero 32-byte word as the "unassigned" sentinel (§3), so
the modelled digest is kept distinct from it by a fixed leading byte. -/
def digest32 (l : List Nat) : List Nat := 1 :: natToBytesLE 31 (mixFold l)

/-- Modelled from the spec: `hash_metadata` (mpl-bubblegum) applied to the
metadata record `mint_cnft` builds.  That record is deterministically keyed
by the current `minted` value (§4.4 of the spec: "a canonical metadata
record deterministically keyed by the current `minted` value"), so its
digest is a function of `minted` alone. -/
def metadataDataHash (minted : Nat) : List Nat :=
  digest32 (2 :: natToBytesLE 8 minted)

/-- Modelled from the spec: `hash_creators(&metadata.creators)` with the
empty creator list that `mint_cnft` always uses. -/
def creatorsHash : List Nat := digest32 [3]

/-- Modelled from the spec: `get_asset_id(tree_pubkey, nonce)`
(mpl-bubblegum), the leaf id derived from the tree identity and the
nonce (§3 of the spec: "id (derived from tree identity + nonce)"). -/
def getAssetId (treePub : List Nat) (nonce : Nat) : List Nat :=
  digest32 (4 :: (treePub ++ natToBytesLE 8 nonce))

/-- The `LeafSchema::V1` record built by `mint_cnft` and `transfer_cnft`:
id, owner, delegate, nonce, data_hash, creator_hash. -/
structure LeafSchema where
  id : List Nat
  owner : List Nat
  delegate : List Nat
  nonce : Nat
  data_hash : List Nat
  creator_hash : List Nat

/-- Modelled from the spec: `LeafSchema::hash` (mpl-bubblegum), the
canonical leaf digest over the version byte and the encoded fields
(§4.1: `leafHash(leaf) -> 32 bytes`, canonical and deterministic). -/
def leafSchemaHash (l : LeafSchema) : List Nat :=
  digest32 (1 :: (l.id ++ l.owner ++ l.delegate ++ natToBytesLE 8 l.nonce
      ++ l.data_hash ++ l.creator_hash))

/- ===== base58 decoding (utils.rs) ===== -/

/-- The base58 alphabet used by the `bs58` codec. -/
def base58Alphabet : List Char :=
  "123456789ABCDEFGHJKLMNPQRSTUVWXYZabcdefghijkmnopqrstuvwxyz".toList

/-- Value of one base58 digit, `none` for a character outside the
alphabet. -/
def b58Digit (c : Char) : Option Nat :=
  base58Alphabet.findIdx? (fun a => a = c)

/-- Fold a run of base58 digits into the number they denote
(most-significant digit first). -/
def decodeDigitsAux : Nat → List Char → Option Nat
  | acc, [] => some acc
  | acc, c :: cs =>
    match b58Digit c with
    | none => none
    | some d => decodeDigitsAux (acc * 58 + d) cs

/-- Big-endian byte expansion of a number, with fuel.  Fuel 128 is exact
for every value whose expansion has at most 128 bytes; the repository
only ever accepts decodings of length 32 or 64, and any input whose true
expansion exceeds 128 bytes still fails those length checks here, so the
model agrees with the real codec on every check the code performs. -/
def natToBytesBEAux : Nat → Nat → List Nat
  | 0, _ => []
  | _ + 1, 0 => []
  | fuel + 1, n + 1 => natToBytesBEAux fuel ((n + 1) / 256) ++ [(n + 1) % 256]

/-- Modelled from the spec (`HashCodec` / the external `bs58` crate):
base58 decoding.  Each leading `1` contributes one zero byte; the
remaining characters are base58 digits of a big-endian number; any
character outside the alphabet fails the decode. -/
def bs58Decode (s : String) : Option (List Nat) :=
  let cs := s.toList
  let zeros := (cs.takeWhile (fun c => c = '1')).length
  let rest := cs.dropWhile (fun c => c = '1')
  match decodeDigitsAux 0 rest with
  | none => none
  | some n => some (List.replicate zeros 0 ++ natToBytesBEAux 128 n)

/-- `utils.rs::base58_to_array`: decode a base58 string and require the
result to be exactly 32 bytes. -/
def base58_to_array (b58 : String) : Except Unit (List Nat) :=
  match bs58Decode b58 with
  | none => .error ()
  | some bytes => if bytes.length = 32 then .ok bytes else .error ()

/- ===== Keys (solana-sdk, modelled from the spec) ===== -/

/-- Modelled from the spec: a solana `Keypair`, carried as its 64
serialized bytes (secret then public). -/
structure Keypair where
  bytes : List Nat

/-- Modelled from the spec: `Keypair::from_bytes`, which fails unless
given exactly 64 bytes. -/
def Keypair.fromBytes (l : List Nat) : Except Unit Keypair :=
  if l.length = 64 then .ok ⟨l⟩ else .error ()

/-- The public half of a serialized keypair. -/
def Keypair.pubkeyBytes (k : Keypair) : List Nat := k.bytes.drop 32

/-- `utils.rs::safely_from_base58_string`: base58-decode a credential and
build a keypair from the bytes. -/
def safely_from_base58_string (s : String) : Except Unit Keypair :=
  match bs58Decode s with
  | none => .error ()
  | some bytes => Keypair.fromBytes bytes

/-- Modelled from the spec (`KeyCodec.decode`): `Pubkey::from_str`, a
base58 decode that must yield exactly 32 bytes. -/
def pubkeyFromStr (s : String) : Except Unit (List Nat) :=
  match bs58Decode s with
  | none => .error ()
  | some b => if b.length = 32 then .ok b else .error ()

/-- Models `s.trim().is_empty()`: true exactly when every character of
the string is whitespace. -/
def trim_is_empty (s : String) : Bool :=
  s.toList.all (fun c => c.isWhitespace)

/- ===== TreeManager state (setup.rs) ===== -/

/-- `setup.rs::TreeManager`, field for field. -/
structure TreeManager where
  max_depth : Nat
  max_buffer_size : Nat
  serialized_tree_account : List Nat
  nodes : List (List Nat)
  minted : Nat

/-- The tree identity: the public half of the serialized tree-account
keypair. -/
def treePubkey (s : TreeManager) : List Nat :=
  s.serialized_tree_account.drop 32

/-- `lib.rs::tree_manager_init` via `TreeManager::default`.  The randomly
generated keypair is taken as a parameter (the entropy source is outside
the embedding); everything else is the literal `default()` body:
`max_depth = 14`, `max_buffer_size = 64`, 16384 zero-sentinel slots,
`minted = 0`. -/
def tree_manager_init (keypairBytes : List Nat) : TreeManager :=
  { max_depth := 14
    max_buffer_size := 64
    serialized_tree_account := keypairBytes
    nodes := List.replicate 16384 zero32
    minted := 0 }

/-- Outcomes of the external calls a run may perform (`none` models a
failed RPC round trip): rent lookup, latest blockhash, transaction
submission. -/
structure Externals where
  rent : Option Nat
  blockhash : Option (List Nat)
  sendResult : Option String

/-- The tagged errors of the spec's taxonomy (§7), plus `panicked` for an
unguarded Rust panic and `invalidKeypair` for a failing
`Keypair::from_bytes` on the stored tree account.  `indexOutOfRange` and
`capacityExceeded` are part of the taxonomy; whether any code path
produces them is settled by the theorems below. -/
inductive NifError where
  | invalidKeypair
  | invalidCredential
  | invalidRecipient
  | invalidHashEncoding
  | indexOutOfRange
  | capacityExceeded
  | networkError
  | panicked
deriving DecidableEq

/-- Observable steps of a run, in the order the code performs them. -/
inductive Event where
  | computedProof
  | decodedDataHash
  | decodedCreatorHash
  | submitted
  | wroteLeaf
deriving DecidableEq

/- ===== The off-chain Merkle tree (spl-merkle-tree-reference) ===== -/

/-- `utils.rs::convert_nodes`: converting the node vector into
`[[u8; 32]; 16384]` panics unless there are exactly 16384 nodes of 32
bytes each; `none` models the panic. -/
def convert_nodes (nodes : List (List Nat)) : Option (List (List Nat)) :=
  if nodes.length == 16384 && nodes.all (fun v => v.length == 32) then
    some nodes
  else none

/-- Modelled from the spec (§4.3): one level of pairwise hashing of
sibling pairs, with combiner `f`. -/
def hashLevel (f : List Nat → List Nat → List Nat) :
    List (List Nat) → List (List Nat)
  | a :: b :: rest => f a b :: hashLevel f rest
  | _ => []

/-- Modelled from the spec (§4.3): `d` rounds of pairwise hashing. -/
def levelUp (f : List Nat → List Nat → List Nat) :
    Nat → List (List Nat) → List (List Nat)
  | 0, l => l
  | d + 1, l => levelUp f d (hashLevel f l)

/-- Modelled from the spec (§4.3): `root()`, the single hash left after
`max_depth` rounds of pairwise hashing over all the leaves. -/
def merkleRoot (f : List Nat → List Nat → List Nat) (d : Nat)
    (leaves : List (List Nat)) : List Nat :=
  (levelUp f d leaves).headD []

/-- Modelled from the spec (§4.3): `proof(index)` /
`MerkleTree::get_proof_of_leaf`, the sibling hash at each level along the
path from `index` to the root, ordered leaf to root. -/
def merkleProof (f : List Nat → List Nat → List Nat) :
    Nat → List (List Nat) → Nat → List (List Nat)
  | 0, _, _ => []
  | d + 1, leaves, i =>
    (if i % 2 = 0 then leaves.getD (i + 1) [] else leaves.getD (i - 1) []) ::
      merkleProof f d (hashLevel f leaves) (i / 2)

/-- The verification fold of §4.3: combine the running hash with each
sibling, choosing left/right order per the bit of the index at that
level. -/
def foldProof (f : List Nat → List Nat → List Nat) :
    List (List Nat) → List Nat → Nat → List Nat
  | [], h, _ => h
  | sib :: rest, h, i =>
    foldProof f rest (if i % 2 = 0 then f h sib else f sib h) (i / 2)

/-- Modelled from the spec: the internal node combiner of the reference
tree (keccak of the two children, external to this repository). -/
def nodeCombine (a b : List Nat) : List Nat := digest32 (a ++ b)

/- ===== create_tree (setup.rs lines 116-169) ===== -/

/-- `TreeManager::create_tree`, in the order the code runs: rebuild the
tree-account keypair, reject an all-whitespace owner credential, parse
the owner credential, fetch rent, fetch a blockhash, submit.  The state
is returned alongside the result; the function never touches `nodes` or
`minted`. -/
def create_tree (s : TreeManager) (ownerKey : String) (ext : Externals) :
    TreeManager × Except NifError String :=
  let r : Except NifError String :=
    match Keypair.fromBytes s.serialized_tree_account with
    | .error _ => .error .invalidKeypair
    | .ok _ =>
      if trim_is_empty ownerKey then .error .invalidCredential
      else
        match safely_from_base58_string ownerKey with
        | .error _ => .error .invalidCredential
        | .ok _ =>
          match ext.rent with
          | none => .error .networkError
          | some _ =>
            match ext.blockhash with
            | none => .error .networkError
            | some _ =>
              match ext.sendResult with
              | none => .error .networkError
              | some sig => .ok sig
  (s, r)

/- ===== mint_cnft (setup.rs lines 208-283) ===== -/

/-- The fallible prefix of `TreeManager::mint_cnft`, in code order:
rebuild the tree-account keypair, reject an all-whitespace owner
credential, parse the owner credential, parse the recipient key, fetch a
blockhash, submit the mint transaction.  Returns the tree public key,
the parsed recipient and the confirmed signature. -/
def mint_checks (s : TreeManager) (ownerKey nftOwner : String)
    (ext : Externals) : Except NifError (List Nat × List Nat × String) :=
  match Keypair.fromBytes s.serialized_tree_account with
  | .error _ => .error .invalidKeypair
  | .ok treeAccount =>
    if trim_is_empty ownerKey then .error .invalidCredential
    else
      match safely_from_base58_string ownerKey with
      | .error _ => .error .invalidCredential
      | .ok _ =>
        match pubkeyFromStr nftOwner with
        | .error _ => .error .invalidRecipient
        | .ok nftPk =>
          match ext.blockhash with
          | none => .error .networkError
          | some _ =>
            match ext.sendResult with
            | none => .error .networkError
            | some sig => .ok (treeAccount.pubkeyBytes, nftPk, sig)

/-- `TreeManager::mint_cnft`.  After a confirmed submission the code
hashes the leaf `{id: get_asset_id(tree, minted), owner: recipient,
delegate: recipient, nonce: minted, data_hash, creator_hash}` and writes
`self.nodes[minted]`, then increments `minted`.  The write
`self.nodes[minted_nonce] = ...` is a plain index assignment: when
`minted` is not below the node count it panics (`panicked`), after the
transaction was already submitted. -/
def mint_cnft (s : TreeManager) (ownerKey nftOwner : String)
    (ext : Externals) : TreeManager × List Event × Except NifError String :=
  match mint_checks s ownerKey nftOwner ext with
  | .error e => (s, [], .error e)
  | .ok (treePub, nftPk, sig) =>
    let k := s.minted
    let leaf := leafSchemaHash
      ⟨getAssetId treePub k, nftPk, nftPk, k, metadataDataHash k, creatorsHash⟩
    if k < s.nodes.length then
      ({ s with nodes := s.nodes.set k leaf, minted := k + 1 },
       [Event.submitted, Event.wroteLeaf], .ok sig)
    else
      (s, [Event.submitted], .error .panicked)

/- ===== transfer_cnft (setup.rs lines 315-414) ===== -/

/-- The credential/key/network sequence of `TreeManager::transfer_cnft`
that follows the two hash decodes, in code order: rebuild the
tree-account keypair, reject an all-whitespace tree-owner credential,
parse it, reject an all-whitespace old-owner credential, parse it, parse
the new owner key, fetch a blockhash, submit.  Returns the tree public
key, the parsed new owner and the confirmed signature. -/
def transfer_checks (s : TreeManager) (tk okk nk : String)
    (ext : Externals) : Except NifError (List Nat × List Nat × String) :=
  match Keypair.fromBytes s.serialized_tree_account with
  | .error _ => .error .invalidKeypair
  | .ok treeAccount =>
    if trim_is_empty tk then .error .invalidCredential
    else
      match safely_from_base58_string tk with
      | .error _ => .error .invalidCredential
      | .ok _ =>
        if trim_is_empty okk then .error .invalidCredential
        else
          match safely_from_base58_string okk with
          | .error _ => .error .invalidCredential
          | .ok _ =>
            match pubkeyFromStr nk with
            | .error _ => .error .invalidRecipient
            | .ok newPk =>
              match ext.blockhash with
              | none => .error .networkError
              | some _ =>
                match ext.sendResult with
                | none => .error .networkError
                | some sig => .ok (treeAccount.pubkeyBytes, newPk, sig)

/-- `TreeManager::transfer_cnft`, in code order.  First `convert_nodes`
(panics on a malformed node vector), then the off-chain tree is built and
`get_proof_of_leaf(index)` runs — an unguarded `leaf_nodes[index]`,
so an index at or beyond 16384 panics.  Only then are the two hash
strings decoded, the credentials and keys processed and the transaction
submitted; after a confirmed submission the code rehashes the leaf for
the new owner and writes `self.nodes[index]`. -/
def transfer_cnft (s : TreeManager) (tk okk nk : String) (index : Nat)
    (dh ch : String) (ext : Externals) :
    TreeManager × List Event × Except NifError String :=
  match convert_nodes s.nodes with
  | none => (s, [], .error .panicked)
  | some leaves =>
    if 16384 ≤ index then (s, [], .error .panicked)
    else
      let _prf := merkleProof nodeCombine 14 leaves index
      let _root := merkleRoot nodeCombine 14 leaves
      match base58_to_array dh with
      | .error _ => (s, [Event.computedProof], .error .invalidHashEncoding)
      | .ok dha =>
        match base58_to_array ch with
        | .error _ =>
          (s, [Event.computedProof, Event.decodedDataHash],
           .error .invalidHashEncoding)
        | .ok cha =>
          match transfer_checks s tk okk nk ext with
          | .error e =>
            (s, [Event.computedProof, Event.decodedDataHash,
                 Event.decodedCreatorHash], .error e)
          | .ok (tpub, newPk, sig) =>
            let leaf := leafSchemaHash
              ⟨getAssetId tpub index, newPk, newPk, index, dha, cha⟩
            ({ s with nodes := s.nodes.set index leaf },
             [Event.computedProof, Event.decodedDataHash,
              Event.decodedCreatorHash, Event.submitted, Event.wroteLeaf],
             .ok sig)

/- ===== State invariant (spec §3) ===== -/

/-- The TreeManager invariant of §3: the leaf array has constant length
`2 ^ max_depth` (the capacity), `minted` stays within the capacity, and
every slot at or beyond `minted` holds the zero sentinel. -/
def Invariant (s : TreeManager) : Prop :=
  s.nodes.length = 2 ^ s.max_depth ∧
  s.minted ≤ 2 ^ s.max_depth ∧
  ∀ i, s.minted ≤ i → i < 2 ^ s.max_depth → s.nodes.getD i [] = zero32

/- ===== Concrete inputs for witnesses and counterexamples ===== -/

/-- 64 serialized keypair bytes (secret then public), all zero. -/
def kp0 : List Nat := List.replicate 64 0

/-- A base58 credential decoding to 64 zero bytes. -/
def key64 : String :=
  "1111111111111111111111111111111111111111111111111111111111111111"

/-- A base58 string decoding to exactly 32 zero bytes. -/
def key32 : String := "11111111111111111111111111111111"

/-- A base58 string decoding to 31 bytes — one byte short of a hash. -/
def h31 : String := "1111111111111111111111111111111"

/-- A base58 string decoding to a single byte. -/
def badHash : String := "2"

/-- Externals in which every RPC call succeeds. -/
def ext0 : Externals := ⟨some 1, some [0], some "sigA"⟩

/-- A freshly initialized manager over `kp0`. -/
def s0 : TreeManager := tree_manager_init kp0

/-- A manager at full capacity: `minted == 16384 == 2 ^ 14`. -/
def sFull : TreeManager := { s0 with minted := 16384 }

/-- The 32 zero bytes that `key32` decodes to. -/
def pk0 : List Nat := List.replicate 32 0

/-- The empty credential string. -/
def emptyKey : String := ""

/-- A two-leaf manager used to exercise the verification law concretely. -/
def sC1 : TreeManager :=
  { max_depth := 1
    max_buffer_size := 64
    serialized_tree_account := []
    nodes := [[1], [2]]
    minted := 1 }

/-- A concrete combiner for exercising the verification law. -/
def cat2 (a b : List Nat) : List Nat := a ++ b

/- ===== List helper lemmas ===== -/

theorem getD_set_self : ∀ (l : List (List Nat)) (i : Nat) (v : List Nat),
    i < l.length → (l.set i v).getD i [] = v
  | [], i, v, h => absurd h (by simp)
  | _ :: _, 0, _, _ => rfl
  | _ :: t, i + 1, v, h => getD_set_self t i v (by simpa using h)

theorem getD_set_ne : ∀ (l : List (List Nat)) (i j : Nat) (v : List Nat),
    i ≠ j → (l.set i v).getD j [] = l.getD j []
  | [], _, _, _, _ => by simp
  | _ :: _, 0, 0, _, h => absurd rfl h
  | _ :: _, 0, _ + 1, _, _ => rfl
  | _ :: _, _ + 1, 0, _, _ => rfl
  | _ :: t, i + 1, j + 1, v, h =>
      getD_set_ne t i j v (fun e => h (by rw [e]))

theorem getD_replicate (a : List Nat) : ∀ (n i : Nat), i < n →
    (List.replicate n a).getD i [] = a
  | n + 1, 0, _ => rfl
  | n + 1, i + 1, h => getD_replicate a n i (by omega)
  | 0, _, h => absurd h (by omega)

/- ===== Merkle verification-law lemmas ===== -/

theorem hashLevel_length (f : List Nat → List Nat → List Nat) :
    ∀ l : List (List Nat), (hashLevel f l).length = l.length / 2
  | [] => rfl
  | [_] => by simp [hashLevel]
  | _ :: _ :: rest => by
      simp only [hashLevel, List.length_cons, hashLevel_length f rest]
      omega

theorem hashLevel_getD (f : List Nat → List Nat → List Nat) :
    ∀ (l : List (List Nat)) (j : Nat), 2 * j + 1 < l.length →
      (hashLevel f l).getD j [] = f (l.getD (2 * j) []) (l.getD (2 * j + 1) [])
  | [], _, h => absurd h (by simp)
  | [_], j, h => by
      simp only [List.length_cons, List.length_nil] at h
      omega
  | a :: b :: rest, 0, _ => rfl
  | a :: b :: rest, j + 1, h => by
      have ih := hashLevel_getD f rest j
        (by simp only [List.length_cons] at h; omega)
      have e1 : 2 * (j + 1) = 2 * j + 1 + 1 := by omega
      have e2 : 2 * (j + 1) + 1 = 2 * j + 1 + 1 + 1 := by omega
      simp only [hashLevel, e1, e2, List.getD_cons_succ, ih]

theorem fold_proof_root (f : List Nat → List Nat → List Nat) :
    ∀ (d : Nat) (leaves : List (List Nat)) (i : Nat),
      leaves.length = 2 ^ d → i < 2 ^ d →
      foldProof f (merkleProof f d leaves i) (leaves.getD i []) i =
        merkleRoot f d leaves
  | 0, leaves, i, hl, hi => by
      have hi0 : i = 0 := by omega
      cases leaves with
      | nil => simp at hl
      | cons a t =>
        cases t with
        | nil => simp [hi0, merkleProof, foldProof, merkleRoot, levelUp]
        | cons b t2 => simp only [List.length_cons] at hl; omega
  | d + 1, leaves, i, hl, hi => by
      have hpow : (2 : Nat) ^ (d + 1) = 2 * 2 ^ d := by ring
      have hlen2 : (hashLevel f leaves).length = 2 ^ d := by
        rw [hashLevel_length, hl, hpow]; omega
      have hi2 : i / 2 < 2 ^ d := by omega
      have ih := fold_proof_root f d (hashLevel f leaves) (i / 2) hlen2 hi2
      have hroot : merkleRoot f (d + 1) leaves =
          merkleRoot f d (hashLevel f leaves) := rfl
      simp only [merkleProof, hroot]
      by_cases h0 : i % 2 = 0
      · have hbound : 2 * (i / 2) + 1 < leaves.length := by
          rw [hl, hpow]; omega
        have hcomb := hashLevel_getD f leaves (i / 2) hbound
        have e1 : 2 * (i / 2) = i := by omega
        have e2 : 2 * (i / 2) + 1 = i + 1 := by omega
        rw [e2] at hcomb
        rw [e1] at hcomb
        simp only [foldProof, h0, if_true, if_pos]
        rw [← hcomb]
        exact ih
      · have hbound : 2 * (i / 2) + 1 < leaves.length := by
          rw [hl, hpow]; omega
        have hcomb := hashLevel_getD f leaves (i / 2) hbound
        have e2 : 2 * (i / 2) + 1 = i := by omega
        have e1 : 2 * (i / 2) = i - 1 := by omega
        rw [e2] at hcomb
        rw [e1] at hcomb
        simp only [foldProof, h0, if_false, if_neg]
        rw [← hcomb]
        exact ih

/- ===== Operation characterization lemmas ===== -/

theorem mint_checks_ok_inv (s : TreeManager) (okey nk : String)
    (ext : Externals) (tpub pk : List Nat) (sig : String)
    (h : mint_checks s okey nk ext = .ok (tpub, pk, sig)) :
    tpub = treePubkey s ∧ pubkeyFromStr nk = .ok pk := by
  unfold mint_checks at h
  split at h
  · exact absurd h (by simp)
  next kp hkp =>
    split at h
    · exact absurd h (by simp)
    · split at h
      · exact absurd h (by simp)
      · split at h
        · exact absurd h (by simp)
        next nftPk hp =>
          split at h
          · exact absurd h (by simp)
          · split at h
            · exact absurd h (by simp)
            next sg hsg =>
              simp only [Except.ok.injEq, Prod.mk.injEq] at h
              obtain ⟨h1, h2, h3⟩ := h
              have hbytes : kp.bytes = s.serialized_tree_account := by
                unfold Keypair.fromBytes at hkp
                by_cases hl : s.serialized_tree_account.length = 64
                · rw [if_pos hl] at hkp
                  cases hkp
                  rfl
                · rw [if_neg hl] at hkp
                  exact absurd hkp (by simp)
              constructor
              · rw [← h1]
                unfold Keypair.pubkeyBytes treePubkey
                rw [hbytes]
              · rw [h2] at hp
                exact hp

theorem mint_fst_cases (s : TreeManager) (okey nk : String) (ext : Externals) :
    (mint_cnft s okey nk ext).1 = s ∨
    (s.minted < s.nodes.length ∧ ∃ tpub pk sig,
      mint_checks s okey nk ext = .ok (tpub, pk, sig) ∧
      (mint_cnft s okey nk ext).1 =
        { s with
          nodes := s.nodes.set s.minted (leafSchemaHash
            ⟨getAssetId tpub s.minted, pk, pk, s.minted,
             metadataDataHash s.minted, creatorsHash⟩),
          minted := s.minted + 1 }) := by
  unfold mint_cnft
  split
  · left; rfl
  next tpub pk sig hm =>
    simp only []
    split
    next hk =>
      right
      exact ⟨hk, tpub, pk, sig, hm, rfl⟩
    · left; rfl

theorem mint_err_fst (s : TreeManager) (okey nk : String) (ext : Externals)
    (e : NifError) (h : (mint_cnft s okey nk ext).2.2 = .error e) :
    (mint_cnft s okey nk ext).1 = s := by
  unfold mint_cnft at h ⊢
  split at h
  · rfl
  next tpub pk sig hm =>
    by_cases hk : s.minted < s.nodes.length
    · simp only [if_pos hk] at h
      exact absurd h (by simp)
    · simp only [if_neg hk]

theorem convert_nodes_some_inv (l l2 : List (List Nat))
    (h : convert_nodes l = some l2) : l2 = l ∧ l.length = 16384 := by
  unfold convert_nodes at h
  by_cases hc : (l.length == 16384 && l.all fun v => v.length == 32) = true
  · rw [if_pos hc] at h
    rw [Bool.and_eq_true, beq_iff_eq] at hc
    simp only [Option.some.injEq] at h
    exact ⟨h.symm, hc.1⟩
  · rw [if_neg hc] at h
    exact absurd h (by simp)

theorem transfer_checks_ok_inv (s : TreeManager) (tk okk nk : String)
    (ext : Externals) (tpub pk : List Nat) (sig : String)
    (h : transfer_checks s tk okk nk ext = .ok (tpub, pk, sig)) :
    tpub = treePubkey s ∧ pubkeyFromStr nk = .ok pk := by
  unfold transfer_checks at h
  split at h
  · exact absurd h (by simp)
  next kp hkp =>
    split at h
    · exact absurd h (by simp)
    · split at h
      · exact absurd h (by simp)
      · split at h
        · exact absurd h (by simp)
        · split at h
          · exact absurd h (by simp)
          · split at h
            · exact absurd h (by simp)
            next nftPk hp =>
              split at h
              · exact absurd h (by simp)
              · split at h
                · exact absurd h (by simp)
                next sg hsg =>
                  simp only [Except.ok.injEq, Prod.mk.injEq] at h
                  obtain ⟨h1, h2, h3⟩ := h
                  have hbytes : kp.bytes = s.serialized_tree_account := by
                    unfold Keypair.fromBytes at hkp
                    by_cases hl : s.serialized_tree_account.length = 64
                    · rw [if_pos hl] at hkp
                      cases hkp
                      rfl
                    · rw [if_neg hl] at hkp
                      exact absurd hkp (by simp)
                  constructor
                  · rw [← h1]
                    unfold Keypair.pubkeyBytes treePubkey
                    rw [hbytes]
                  · rw [h2] at hp
                    exact hp

theorem transfer_ok_eq (s : TreeManager) (tk okk nk : String) (i : Nat)
    (dh ch : String) (ext : Externals) (tpub pk : List Nat) (sig : String)
    (dha cha : List Nat)
    (hwf : convert_nodes s.nodes = some s.nodes) (hi : i < 16384)
    (hdh : base58_to_array dh = .ok dha) (hch : base58_to_array ch = .ok cha)
    (hck : transfer_checks s tk okk nk ext = .ok (tpub, pk, sig)) :
    transfer_cnft s tk okk nk i dh ch ext =
      ({ s with nodes := s.nodes.set i (leafSchemaHash
          ⟨getAssetId tpub i, pk, pk, i, dha, cha⟩) },
       [Event.computedProof, Event.decodedDataHash, Event.decodedCreatorHash,
        Event.submitted, Event.wroteLeaf], .ok sig) := by
  unfold transfer_cnft
  simp only [hwf, hdh, hch, hck, if_neg (by omega : ¬ 16384 ≤ i)]

theorem transfer_dh_err_eq (s : TreeManager) (tk okk nk : String) (i : Nat)
    (dh ch : String) (ext : Externals)
    (hwf : convert_nodes s.nodes = some s.nodes) (hi : i < 16384)
    (hdh : base58_to_array dh = .error ()) :
    transfer_cnft s tk okk nk i dh ch ext =
      (s, [Event.computedProof], .error .invalidHashEncoding) := by
  unfold transfer_cnft
  simp only [hwf, hdh, if_neg (by omega : ¬ 16384 ≤ i)]

theorem transfer_ch_err_eq (s : TreeManager) (tk okk nk : String) (i : Nat)
    (dh ch : String) (ext : Externals) (dha : List Nat)
    (hwf : convert_nodes s.nodes = some s.nodes) (hi : i < 16384)
    (hdh : base58_to_array dh = .ok dha)
    (hch : base58_to_array ch = .error ()) :
    transfer_cnft s tk okk nk i dh ch ext =
      (s, [Event.computedProof, Event.decodedDataHash],
       .error .invalidHashEncoding) := by
  unfold transfer_cnft
  simp only [hwf, hdh, hch, if_neg (by omega : ¬ 16384 ≤ i)]

theorem transfer_fst_cases (s : TreeManager) (tk okk nk : String) (i : Nat)
    (dh ch : String) (ext : Externals) :
    (transfer_cnft s tk okk nk i dh ch ext).1 = s ∨
    (s.nodes.length = 16384 ∧ i < 16384 ∧ ∃ tpub pk sig dha cha,
      transfer_checks s tk okk nk ext = .ok (tpub, pk, sig) ∧
      base58_to_array dh = .ok dha ∧ base58_to_array ch = .ok cha ∧
      (transfer_cnft s tk okk nk i dh ch ext).1 =
        { s with nodes := s.nodes.set i (leafSchemaHash
            ⟨getAssetId tpub i, pk, pk, i, dha, cha⟩) } ∧
      (transfer_cnft s tk okk nk i dh ch ext).2.2 = .ok sig) := by
  unfold transfer_cnft
  split
  · left; rfl
  next leaves hleaves =>
    split
    · left; rfl
    next hile =>
      split
      · left; rfl
      next dha hdha =>
        split
        · left; rfl
        next cha hcha =>
          split
          · left; rfl
          next tpub pk sig hck =>
            right
            obtain ⟨hl2, hlen⟩ := convert_nodes_some_inv s.nodes leaves hleaves
            exact ⟨hlen, by omega, tpub, pk, sig, dha, cha, hck, hdha, hcha,
              rfl, rfl⟩

theorem transfer_err_fst (s : TreeManager) (tk okk nk : String) (i : Nat)
    (dh ch : String) (ext : Externals) (e : NifError)
    (h : (transfer_cnft s tk okk nk i dh ch ext).2.2 = .error e) :
    (transfer_cnft s tk okk nk i dh ch ext).1 = s := by
  rcases transfer_fst_cases s tk okk nk i dh ch ext with hc | hc
  · exact hc
  · obtain ⟨_, _, tpub, pk, sig, dha, cha, _, _, _, _, hok⟩ := hc
    rw [hok] at h
    exact absurd h (by simp)

theorem transfer_checks_ne_ioor (s : TreeManager) (tk okk nk : String)
    (ext : Externals)
    (h : transfer_checks s tk okk nk ext = .error .indexOutOfRange) :
    False := by
  unfold transfer_checks at h
  split at h
  · simp at h
  · split at h
    · simp at h
    · split at h
      · simp at h
      · split at h
        · simp at h
        · split at h
          · simp at h
          · split at h
            · simp at h
            · split at h
              · simp at h
              · split at h
                · simp at h
                · simp at h

theorem transfer_no_ioor (s : TreeManager) (tk okk nk : String) (i : Nat)
    (dh ch : String) (ext : Externals) :
    (transfer_cnft s tk okk nk i dh ch ext).2.2 ≠
      .error .indexOutOfRange := by
  unfold transfer_cnft
  split
  · simp
  next leaves hleaves =>
    split
    · simp
    next hile =>
      split
      · simp
      next dha hdha =>
        split
        · simp
        next cha hcha =>
          split
          next e hck =>
            simp only [ne_eq, Except.error.injEq]
            intro he
            rw [he] at hck
            exact transfer_checks_ne_ioor s tk okk nk ext hck
          next tpub pk sig hck => simp


theorem mint_ok_eq (s : TreeManager) (okey nk : String) (ext : Externals)
    (tpub pk : List Nat) (sig : String)
    (hck : mint_checks s okey nk ext = .ok (tpub, pk, sig))
    (hk : s.minted < s.nodes.length) :
    mint_cnft s okey nk ext =
      ({ s with
          nodes := s.nodes.set s.minted (leafSchemaHash
            ⟨getAssetId tpub s.minted, pk, pk, s.minted,
             metadataDataHash s.minted, creatorsHash⟩),
          minted := s.minted + 1 },
       [Event.submitted, Event.wroteLeaf], .ok sig) := by
  unfold mint_cnft
  simp only [hck, if_pos hk]

theorem mint_panic_eq (s : TreeManager) (okey nk : String) (ext : Externals)
    (tpub pk : List Nat) (sig : String)
    (hck : mint_checks s okey nk ext = .ok (tpub, pk, sig))
    (hk : ¬ s.minted < s.nodes.length) :
    mint_cnft s okey nk ext = (s, [Event.submitted], .error .panicked) := by
  unfold mint_cnft
  simp only [hck, if_neg hk]

theorem digest32_ne_zero32 (l : List Nat) : digest32 l ≠ zero32 := by
  intro h
  have h2 := congrArg (fun t => t.headD 5) h
  simp [digest32, zero32, List.replicate_succ] at h2

theorem leafSchemaHash_ne_zero32 (l : LeafSchema) :
    leafSchemaHash l ≠ zero32 :=
  digest32_ne_zero32 _

theorem convert_nodes_eq_some (l : List (List Nat))
    (h1 : l.length = 16384) (h2 : ∀ v ∈ l, v.length = 32) :
    convert_nodes l = some l := by
  unfold convert_nodes
  rw [if_pos]
  rw [Bool.and_eq_true, beq_iff_eq, List.all_eq_true]
  constructor
  · exact h1
  · intro v hv
    exact beq_iff_eq.mpr (h2 v hv)

theorem s0_nodes_len : s0.nodes.length = 16384 := by
  simp only [s0, tree_manager_init, List.length_replicate]

theorem s0_nodes_wf : convert_nodes s0.nodes = some s0.nodes := by
  apply convert_nodes_eq_some
  · exact s0_nodes_len
  · intro v hv
    have hv2 : v = zero32 :=
      List.eq_of_mem_replicate (by simpa only [s0, tree_manager_init] using hv)
    rw [hv2]
    simp only [zero32, List.length_replicate]

theorem init_invariant (kp : List Nat) : Invariant (tree_manager_init kp) := by
  refine ⟨?_, ?_, ?_⟩
  · simp only [tree_manager_init, List.length_replicate]
    norm_num
  · exact Nat.zero_le _
  · intro i hmin hi
    simp only [tree_manager_init] at hi ⊢
    exact getD_replicate zero32 16384 i (by norm_num at hi; omega)

theorem mint_checks_s0 : mint_checks s0 key64 key32 ext0 =
    .ok (treePubkey s0, pk0, "sigA") := rfl

theorem transfer_checks_s0 : transfer_checks s0 key64 key64 key32 ext0 =
    .ok (treePubkey s0, pk0, "sigA") := rfl

theorem b58_key32 : base58_to_array key32 = .ok pk0 := rfl

theorem b58_h31 : base58_to_array h31 = .error () := rfl

theorem b58_badHash : base58_to_array badHash = .error () := rfl

theorem mint_ok_inv (s : TreeManager) (okey nk : String) (ext : Externals)
    (s2 : TreeManager) (ev : List Event) (sig : String)
    (h : mint_cnft s okey nk ext = (s2, ev, .ok sig)) :
    s.minted < s.nodes.length ∧ ∃ tpub pk,
      mint_checks s okey nk ext = .ok (tpub, pk, sig) ∧
      s2 = { s with
              nodes := s.nodes.set s.minted (leafSchemaHash
                ⟨getAssetId tpub s.minted, pk, pk, s.minted,
                 metadataDataHash s.minted, creatorsHash⟩),
              minted := s.minted + 1 } := by
  unfold mint_cnft at h
  split at h
  · exact absurd (congrArg (fun t => t.2.2) h) (by simp)
  next tpub pk sig2 hm =>
    by_cases hk : s.minted < s.nodes.length
    · simp only [if_pos hk, Prod.mk.injEq] at h
      obtain ⟨h1, h2, h3⟩ := h
      simp only [Except.ok.injEq] at h3
      rw [h3] at hm
      exact ⟨hk, tpub, pk, hm, h1.symm⟩
    · simp only [if_neg hk] at h
      exact absurd (congrArg (fun t => t.2.2) h) (by simp)

theorem transfer_ok_inv (s : TreeManager) (tk okk nk : String) (i : Nat)
    (dh ch : String) (ext : Externals) (s2 : TreeManager) (ev : List Event)
    (sig : String)
    (h : transfer_cnft s tk okk nk i dh ch ext = (s2, ev, .ok sig)) :
    s.nodes.length = 16384 ∧ i < 16384 ∧ ∃ tpub pk dha cha,
      transfer_checks s tk okk nk ext = .ok (tpub, pk, sig) ∧
      base58_to_array dh = .ok dha ∧ base58_to_array ch = .ok cha ∧
      s2 = { s with nodes := s.nodes.set i (leafSchemaHash
              ⟨getAssetId tpub i, pk, pk, i, dha, cha⟩) } := by
  unfold transfer_cnft at h
  split at h
  · exact absurd (congrArg (fun t => t.2.2) h) (by simp)
  next leaves hleaves =>
    split at h
    · exact absurd (congrArg (fun t => t.2.2) h) (by simp)
    next hile =>
      split at h
      · exact absurd (congrArg (fun t => t.2.2) h) (by simp)
      next dha hdha =>
        split at h
        · exact absurd (congrArg (fun t => t.2.2) h) (by simp)
        next cha hcha =>
          split at h
          · exact absurd (congrArg (fun t => t.2.2) h) (by simp)
          next tpub pk sig2 hck =>
            simp only [Prod.mk.injEq] at h
            obtain ⟨h1, h2, h3⟩ := h
            simp only [Except.ok.injEq] at h3
            rw [h3] at hck
            obtain ⟨hl2, hlen⟩ := convert_nodes_some_inv s.nodes leaves hleaves
            exact ⟨hlen, by omega, tpub, pk, dha, cha, hck, hdha, hcha, h1.symm⟩

theorem mint_checks_sFull : mint_checks sFull key64 key32 ext0 =
    .ok (treePubkey sFull, pk0, "sigA") := rfl

/- ===== Claim theorems ===== -/

/-- Claim C1: for every TreeManager state whose leaf array fills the
capacity `2 ^ max_depth` and every index `i < minted`, folding the
sibling sequence `proof(i)` of the off-chain Merkle tree against the
stored leaf hash `LeafStore[i]`, choosing left/right concatenation order
per the bit of `i` at each level, reproduces the tree's `root()`
exactly, for any node combiner `f`. -/
theorem merkle_verification_law (f : List Nat → List Nat → List Nat)
    (s : TreeManager) (i : Nat)
    (hlen : s.nodes.length = 2 ^ s.max_depth)
    (hcap : s.minted ≤ 2 ^ s.max_depth) (hi : i < s.minted) :
    foldProof f (merkleProof f s.max_depth s.nodes i) (s.nodes.getD i []) i =
      merkleRoot f s.max_depth s.nodes :=
  fold_proof_root f s.max_depth s.nodes i hlen (lt_of_lt_of_le hi hcap)

/-- Witness for C1: the verification law evaluated on a concrete two-leaf
manager with the concatenation combiner. -/
theorem merkle_verification_law_witness :
    sC1.nodes.length = 2 ^ sC1.max_depth ∧
    sC1.minted ≤ 2 ^ sC1.max_depth ∧ 0 < sC1.minted ∧
    foldProof cat2 (merkleProof cat2 sC1.max_depth sC1.nodes 0)
      (sC1.nodes.getD 0 []) 0 = merkleRoot cat2 sC1.max_depth sC1.nodes :=
  ⟨by decide, by decide, by decide,
   merkle_verification_law cat2 sC1 0 (by decide) (by decide) (by decide)⟩

/-- Claim C5 (code_bug evidence): on a manager at full capacity
(`minted == capacity == 16384`), `mint_cnft` does not fail with
`CapacityExceeded`; it submits the mint transaction and then panics on
the unguarded leaf write `self.nodes[minted]`, leaving the state
unchanged. -/
theorem mint_at_capacity_panics :
    sFull.minted = 16384 ∧ sFull.nodes.length = 16384 ∧
    mint_cnft sFull key64 key32 ext0 =
      (sFull, [Event.submitted], .error .panicked) := by
  refine ⟨rfl, s0_nodes_len, ?_⟩
  refine mint_panic_eq sFull key64 key32 ext0 (treePubkey sFull) pk0 "sigA"
    mint_checks_sFull ?_
  have hl : sFull.nodes.length = 16384 := s0_nodes_len
  have hm : sFull.minted = 16384 := rfl
  omega

/-- Claim C8: every run of create, mint or transfer that returns an
error leaves the TreeManager exactly as it was — no partial writes on
failure. -/
theorem ops_no_partial_writes :
    (∀ s okey ext e, (create_tree s okey ext).2 = .error e →
      (create_tree s okey ext).1 = s) ∧
    (∀ s okey nk ext e, (mint_cnft s okey nk ext).2.2 = .error e →
      (mint_cnft s okey nk ext).1 = s) ∧
    (∀ s tk okk nk i dh ch ext e,
      (transfer_cnft s tk okk nk i dh ch ext).2.2 = .error e →
      (transfer_cnft s tk okk nk i dh ch ext).1 = s) :=
  ⟨fun _ _ _ _ _ => rfl,
   fun s okey nk ext e h => mint_err_fst s okey nk ext e h,
   fun s tk okk nk i dh ch ext e h =>
     transfer_err_fst s tk okk nk i dh ch ext e h⟩

/-- Witness for C8: a mint with an empty owner credential fails with
`InvalidCredential` and leaves the manager untouched. -/
theorem ops_no_partial_writes_witness :
    (mint_cnft s0 emptyKey key32 ext0).2.2 = .error .invalidCredential ∧
    (mint_cnft s0 emptyKey key32 ext0).1 = s0 :=
  ⟨rfl,
   ops_no_partial_writes.2.1 s0 emptyKey key32 ext0 .invalidCredential rfl⟩

/-- Claim C9: initialization never fails and yields `max_depth = 14`,
`max_buffer_size = 64`, a leaf array of exactly `2 ^ 14 = 16384` slots
all holding the zero sentinel, `minted = 0`, and the freshly generated
keypair as the tree identity. -/
theorem tree_manager_init_spec (kp : List Nat) :
    (tree_manager_init kp).max_depth = 14 ∧
    (tree_manager_init kp).max_buffer_size = 64 ∧
    (tree_manager_init kp).nodes = List.replicate (2 ^ 14) zero32 ∧
    (tree_manager_init kp).nodes.length = 16384 ∧
    (tree_manager_init kp).minted = 0 ∧
    (tree_manager_init kp).serialized_tree_account = kp := by
  refine ⟨rfl, rfl, ?_, ?_, rfl, rfl⟩
  · norm_num [tree_manager_init]
  · simp only [tree_manager_init, List.length_replicate]

/-- Claim C10: a transfer with `index ≥ capacity (16384)` — on any state
— panics through the unguarded indexing of the proof lookup instead of
returning a tagged `IndexOutOfRange` error. -/
theorem transfer_overflow_panics (s : TreeManager) (tk okk nk : String)
    (i : Nat) (dh ch : String) (ext : Externals) (hi : 16384 ≤ i) :
    transfer_cnft s tk okk nk i dh ch ext = (s, [], .error .panicked) ∧
    NifError.panicked ≠ NifError.indexOutOfRange := by
  refine ⟨?_, by simp⟩
  unfold transfer_cnft
  split
  · rfl
  next leaves hleaves => rw [if_pos hi]

/-- Witness for C10: the panic at the exact boundary index 16384 on a
fresh manager. -/
theorem transfer_overflow_panics_witness :
    16384 ≤ 16384 ∧
    transfer_cnft s0 key64 key64 key32 16384 key32 key32 ext0 =
      (s0, [], .error .panicked) :=
  ⟨le_refl _,
   (transfer_overflow_panics s0 key64 key64 key32 16384 key32 key32 ext0
     (le_refl _)).1⟩

/-- Claim C2: for a manager with `minted == k < capacity`, a successful
mint leaves `minted == k + 1` and `LeafStore[k]` equal to the hash of the
pending leaf — id derived from the tree identity and nonce `k`, owner and
delegate both the recipient, nonce `k` — which differs from the zero
sentinel. -/
theorem mint_commit_spec (s : TreeManager) (okey nk : String)
    (ext : Externals) (s2 : TreeManager) (ev : List Event) (sig : String)
    (k : Nat) (hk : s.minted = k) (hcap : k < 2 ^ s.max_depth)
    (h : mint_cnft s okey nk ext = (s2, ev, .ok sig)) :
    s2.minted = k + 1 ∧
    ∃ pk, pubkeyFromStr nk = .ok pk ∧
      s2.nodes.getD k [] = leafSchemaHash
        ⟨getAssetId (treePubkey s) k, pk, pk, k, metadataDataHash k,
         creatorsHash⟩ ∧
      s2.nodes.getD k [] ≠ zero32 := by
  obtain ⟨hlt, tpub, pk, hck, hs2⟩ := mint_ok_inv s okey nk ext s2 ev sig h
  obtain ⟨htp, hpk⟩ := mint_checks_ok_inv s okey nk ext tpub pk sig hck
  subst hk
  subst htp
  refine ⟨by rw [hs2], pk, hpk, ?_, ?_⟩
  · rw [hs2]
    exact getD_set_self s.nodes s.minted _ hlt
  · rw [hs2]
    rw [getD_set_self s.nodes s.minted _ hlt]
    exact leafSchemaHash_ne_zero32 _

/-- Witness for C2: a concrete successful mint on a fresh manager. -/
theorem mint_commit_spec_witness :
    (mint_cnft s0 key64 key32 ext0).1.minted = 0 + 1 ∧
    ∃ pk, pubkeyFromStr key32 = .ok pk ∧
      (mint_cnft s0 key64 key32 ext0).1.nodes.getD 0 [] = leafSchemaHash
        ⟨getAssetId (treePubkey s0) 0, pk, pk, 0, metadataDataHash 0,
         creatorsHash⟩ ∧
      (mint_cnft s0 key64 key32 ext0).1.nodes.getD 0 [] ≠ zero32 :=
  mint_commit_spec s0 key64 key32 ext0 (mint_cnft s0 key64 key32 ext0).1
    (mint_cnft s0 key64 key32 ext0).2.1 "sigA" 0 rfl
    (by exact pow_pos (by norm_num) 14)
    (by rw [mint_ok_eq s0 key64 key32 ext0 (treePubkey s0) pk0 "sigA"
          mint_checks_s0 (by
            have hm : s0.minted = 0 := rfl
            rw [s0_nodes_len, hm]
            omega)])

/-- Claim C3: a successful transfer at `index` commits
`LeafStore[index] = leafHash` of the leaf whose id is recomputed from
the tree identity and `index`, whose owner and delegate are both the new
owner, whose nonce is `index`, and whose data and creator hashes are the
32-byte decodings of the two hash strings. -/
theorem transfer_commit_spec (s : TreeManager) (tk okk nk : String)
    (i : Nat) (dh ch : String) (ext : Externals) (s2 : TreeManager)
    (ev : List Event) (sig : String)
    (h : transfer_cnft s tk okk nk i dh ch ext = (s2, ev, .ok sig)) :
    ∃ pk dha cha,
      pubkeyFromStr nk = .ok pk ∧ base58_to_array dh = .ok dha ∧
      base58_to_array ch = .ok cha ∧
      s2.nodes = s.nodes.set i (leafSchemaHash
        ⟨getAssetId (treePubkey s) i, pk, pk, i, dha, cha⟩) ∧
      s2.nodes.getD i [] = leafSchemaHash
        ⟨getAssetId (treePubkey s) i, pk, pk, i, dha, cha⟩ := by
  obtain ⟨hlen, hilt, tpub, pk, dha, cha, hck, hdh, hch, hs2⟩ :=
    transfer_ok_inv s tk okk nk i dh ch ext s2 ev sig h
  obtain ⟨htp, hpk⟩ := transfer_checks_ok_inv s tk okk nk ext tpub pk sig hck
  subst htp
  refine ⟨pk, dha, cha, hpk, hdh, hch, by rw [hs2], ?_⟩
  rw [hs2]
  exact getD_set_self s.nodes i _ (by omega)

/-- Witness for C3: a concrete successful transfer at index 0 on a fresh
manager. -/
theorem transfer_commit_spec_witness :
    ∃ pk dha cha,
      pubkeyFromStr key32 = .ok pk ∧ base58_to_array key32 = .ok dha ∧
      base58_to_array key32 = .ok cha ∧
      (transfer_cnft s0 key64 key64 key32 0 key32 key32 ext0).1.nodes =
        s0.nodes.set 0 (leafSchemaHash
          ⟨getAssetId (treePubkey s0) 0, pk, pk, 0, dha, cha⟩) ∧
      (transfer_cnft s0 key64 key64 key32 0 key32 key32 ext0).1.nodes.getD
        0 [] = leafSchemaHash
          ⟨getAssetId (treePubkey s0) 0, pk, pk, 0, dha, cha⟩ :=
  transfer_commit_spec s0 key64 key64 key32 0 key32 key32 ext0
    (transfer_cnft s0 key64 key64 key32 0 key32 key32 ext0).1
    (transfer_cnft s0 key64 key64 key32 0 key32 key32 ext0).2.1 "sigA"
    (by rw [transfer_ok_eq s0 key64 key64 key32 0 key32 key32 ext0
          (treePubkey s0) pk0 "sigA" pk0 pk0 s0_nodes_wf (by omega)
          b58_key32 b58_key32 transfer_checks_s0])

/-- Counterexample for C4: a successful transfer into a never-minted slot
(index 0 with `minted = 0`) breaks the invariant — the zero-sentinel
region acquires a non-sentinel hash. -/
theorem invariant_broken_by_transfer :
    Invariant s0 ∧
    (transfer_cnft s0 key64 key64 key32 0 key32 key32 ext0).2.2 =
      .ok "sigA" ∧
    ¬ Invariant (transfer_cnft s0 key64 key64 key32 0 key32 key32 ext0).1 := by
  have heq := transfer_ok_eq s0 key64 key64 key32 0 key32 key32 ext0
    (treePubkey s0) pk0 "sigA" pk0 pk0 s0_nodes_wf (by omega)
    b58_key32 b58_key32 transfer_checks_s0
  refine ⟨init_invariant kp0, by rw [heq], ?_⟩
  rw [heq]
  intro hInv
  have hz := hInv.2.2 0 (Nat.le_refl 0) (by norm_num : (0:Nat) < 2 ^ 14)
  have hget : (s0.nodes.set 0 (leafSchemaHash
      ⟨getAssetId (treePubkey s0) 0, pk0, pk0, 0, pk0, pk0⟩)).getD 0 [] =
      leafSchemaHash ⟨getAssetId (treePubkey s0) 0, pk0, pk0, 0, pk0, pk0⟩ :=
    getD_set_self s0.nodes 0 _ (by rw [s0_nodes_len]; omega)
  exact leafSchemaHash_ne_zero32 _ (hget.symm.trans hz)

theorem invariant_set_mint (s : TreeManager) (L : List Nat)
    (hInv : Invariant s) (hlt : s.minted < s.nodes.length) :
    Invariant
      { s with
        nodes := s.nodes.set s.minted L,
        minted := s.minted + 1 } := by
  obtain ⟨h1, h2, h3⟩ := hInv
  refine ⟨?_, ?_, ?_⟩
  · show (s.nodes.set s.minted L).length = 2 ^ s.max_depth
    rw [List.length_set]
    exact h1
  · show s.minted + 1 ≤ 2 ^ s.max_depth
    rw [h1] at hlt
    omega
  · intro j hj1 hj2
    have hj1b : s.minted + 1 ≤ j := hj1
    have hj2b : j < 2 ^ s.max_depth := hj2
    show (s.nodes.set s.minted L).getD j [] = zero32
    rw [getD_set_ne s.nodes s.minted j L (by omega)]
    exact h3 j (by omega) hj2b

theorem invariant_set_transfer (s : TreeManager) (i : Nat) (L : List Nat)
    (hInv : Invariant s) (hidx : i < s.minted) :
    Invariant { s with nodes := s.nodes.set i L } := by
  obtain ⟨h1, h2, h3⟩ := hInv
  refine ⟨?_, ?_, ?_⟩
  · show (s.nodes.set i L).length = 2 ^ s.max_depth
    rw [List.length_set]
    exact h1
  · exact h2
  · intro j hj1 hj2
    have hj1b : s.minted ≤ j := hj1
    have hj2b : j < 2 ^ s.max_depth := hj2
    show (s.nodes.set i L).getD j [] = zero32
    rw [getD_set_ne s.nodes i j L (by omega)]
    exact h3 j hj1b hj2b

/-- Claim C4 (amended): initialization establishes the invariant; create
never mutates the state; mint preserves the invariant and never
decreases `minted` on every outcome; transfer does so provided
`index < minted` — the counterexample shows a transfer into a
never-minted slot violates the zero-sentinel clause. -/
theorem tree_invariant_preservation :
    (∀ kp, Invariant (tree_manager_init kp)) ∧
    (∀ s okey ext, (create_tree s okey ext).1 = s) ∧
    (∀ s okey nk ext s2 ev r, Invariant s →
      mint_cnft s okey nk ext = (s2, ev, r) →
      Invariant s2 ∧ s.minted ≤ s2.minted) ∧
    (∀ s tk okk nk i dh ch ext s2 ev r, Invariant s → i < s.minted →
      transfer_cnft s tk okk nk i dh ch ext = (s2, ev, r) →
      Invariant s2 ∧ s.minted ≤ s2.minted) := by
  refine ⟨init_invariant, fun _ _ _ => rfl, ?_, ?_⟩
  · intro s okey nk ext s2 ev r hInv h
    have hfst : (mint_cnft s okey nk ext).1 = s2 := by rw [h]
    rcases mint_fst_cases s okey nk ext with hc | ⟨hlt, tpub, pk, sig, hck, hc⟩
    · rw [hfst] at hc
      rw [hc]
      exact ⟨hInv, le_refl _⟩
    · rw [hfst] at hc
      rw [hc]
      exact ⟨invariant_set_mint s _ hInv hlt, Nat.le_succ s.minted⟩
  · intro s tk okk nk i dh ch ext s2 ev r hInv hidx h
    have hfst : (transfer_cnft s tk okk nk i dh ch ext).1 = s2 := by rw [h]
    rcases transfer_fst_cases s tk okk nk i dh ch ext with
      hc | ⟨hlen, hile, tpub, pk, sig, dha, cha, hck, hdh, hch, hc, hok⟩
    · rw [hfst] at hc
      rw [hc]
      exact ⟨hInv, le_refl _⟩
    · rw [hfst] at hc
      rw [hc]
      exact ⟨invariant_set_transfer s i _ hInv hidx, le_refl _⟩

/-- Witness for C4 (amended): the mint clause applied to a concrete
successful mint on a fresh manager, whose invariant comes from the
initialization clause. -/
theorem tree_invariant_preservation_witness :
    Invariant (mint_cnft s0 key64 key32 ext0).1 ∧
    s0.minted ≤ (mint_cnft s0 key64 key32 ext0).1.minted :=
  tree_invariant_preservation.2.2.1 s0 key64 key32 ext0
    (mint_cnft s0 key64 key32 ext0).1 (mint_cnft s0 key64 key32 ext0).2.1
    (mint_cnft s0 key64 key32 ext0).2.2
    (tree_invariant_preservation.1 kp0)
    (by rw [mint_ok_eq s0 key64 key32 ext0 (treePubkey s0) pk0 "sigA"
          mint_checks_s0 (by
            have hm : s0.minted = 0 := rfl
            rw [s0_nodes_len, hm]
            omega)])

/-- Counterexample for C6: a transfer with `index = 5 ≥ minted = 0` is
not rejected with `IndexOutOfRange`; with otherwise valid inputs it
succeeds and mutates `LeafStore[5]`. -/
theorem transfer_beyond_minted_succeeds :
    s0.minted ≤ 5 ∧
    (transfer_cnft s0 key64 key64 key32 5 key32 key32 ext0).2.2 =
      .ok "sigA" ∧
    (transfer_cnft s0 key64 key64 key32 5 key32 key32 ext0).1.nodes.getD
      5 [] ≠ zero32 := by
  have heq := transfer_ok_eq s0 key64 key64 key32 5 key32 key32 ext0
    (treePubkey s0) pk0 "sigA" pk0 pk0 s0_nodes_wf (by omega)
    b58_key32 b58_key32 transfer_checks_s0
  refine ⟨Nat.zero_le _, by rw [heq], ?_⟩
  rw [heq]
  have hget := getD_set_self s0.nodes 5 (leafSchemaHash
    ⟨getAssetId (treePubkey s0) 5, pk0, pk0, 5, pk0, pk0⟩)
    (by rw [s0_nodes_len]; omega)
  intro hzero
  exact leafSchemaHash_ne_zero32 _ (hget.symm.trans hzero)

/-- Claim C6 (amended): the transfer path performs no `index < minted`
validation and never returns `IndexOutOfRange`; whenever it does fail,
the leaf array (the whole state) is unchanged. -/
theorem transfer_index_unvalidated (s : TreeManager) (tk okk nk : String)
    (i : Nat) (dh ch : String) (ext : Externals) :
    (transfer_cnft s tk okk nk i dh ch ext).2.2 ≠
      .error .indexOutOfRange ∧
    (∀ e, (transfer_cnft s tk okk nk i dh ch ext).2.2 = .error e →
      (transfer_cnft s tk okk nk i dh ch ext).1 = s) :=
  ⟨transfer_no_ioor s tk okk nk i dh ch ext,
   fun e h => transfer_err_fst s tk okk nk i dh ch ext e h⟩

/-- Witness for C6 (amended): a concrete failing transfer (bad data-hash
string) at `index = 7 ≥ minted` yields a non-`IndexOutOfRange` error and
leaves the state unchanged. -/
theorem transfer_index_unvalidated_witness :
    (transfer_cnft s0 key64 key64 key32 7 badHash key32 ext0).2.2 ≠
      .error .indexOutOfRange ∧
    (transfer_cnft s0 key64 key64 key32 7 badHash key32 ext0).1 = s0 :=
  ⟨(transfer_index_unvalidated s0 key64 key64 key32 7 badHash key32 ext0).1,
   (transfer_index_unvalidated s0 key64 key64 key32 7 badHash key32 ext0).2
     .invalidHashEncoding
     (by rw [transfer_dh_err_eq s0 key64 key64 key32 7 badHash key32 ext0
           s0_nodes_wf (by omega) b58_badHash])⟩

/-- Counterexample for C7: on a 31-byte-decoding data-hash string the
transfer does fail with `InvalidHashEncoding`, but the failing run's
trace is `[computedProof]` — the proof computation happened before the
failure, not after it. -/
theorem transfer_fails_after_proof :
    (transfer_cnft s0 key64 key64 key32 0 h31 key32 ext0).2.2 =
      .error .invalidHashEncoding ∧
    (transfer_cnft s0 key64 key64 key32 0 h31 key32 ext0).2.1 =
      [Event.computedProof] := by
  rw [transfer_dh_err_eq s0 key64 key64 key32 0 h31 key32 ext0 s0_nodes_wf
    (by omega) b58_h31]
  exact ⟨rfl, rfl⟩

/-- Claim C7 (amended): on a well-formed state with an in-capacity index,
a transfer whose data- or creator-hash string does not decode to exactly
32 bytes fails with `InvalidHashEncoding` and leaves the state unchanged
— but only after the Merkle proof has been computed. -/
theorem transfer_hash_validation (s : TreeManager) (tk okk nk : String)
    (i : Nat) (dh ch : String) (ext : Externals)
    (hwf : convert_nodes s.nodes = some s.nodes) (hi : i < 16384)
    (hbad : base58_to_array dh = .error () ∨
      base58_to_array ch = .error ()) :
    (transfer_cnft s tk okk nk i dh ch ext).2.2 =
      .error .invalidHashEncoding ∧
    (transfer_cnft s tk okk nk i dh ch ext).1 = s ∧
    Event.computedProof ∈ (transfer_cnft s tk okk nk i dh ch ext).2.1 := by
  rcases hbad with hb | hb
  · rw [transfer_dh_err_eq s tk okk nk i dh ch ext hwf hi hb]
    exact ⟨rfl, rfl, by simp⟩
  · cases hdh : base58_to_array dh with
    | error u =>
      cases u
      rw [transfer_dh_err_eq s tk okk nk i dh ch ext hwf hi hdh]
      exact ⟨rfl, rfl, by simp⟩
    | ok dha =>
      rw [transfer_ch_err_eq s tk okk nk i dh ch ext dha hwf hi hdh hb]
      exact ⟨rfl, rfl, by simp⟩

/-- Witness for C7 (amended): a concrete run with a 31-byte-decoding
creator-hash string. -/
theorem transfer_hash_validation_witness :
    (transfer_cnft s0 key64 key64 key32 3 key32 h31 ext0).2.2 =
      .error .invalidHashEncoding ∧
    (transfer_cnft s0 key64 key64 key32 3 key32 h31 ext0).1 = s0 ∧
    Event.computedProof ∈
      (transfer_cnft s0 key64 key64 key32 3 key32 h31 ext0).2.1 :=
  transfer_hash_validation s0 key64 key64 key32 3 key32 h31 ext0
    s0_nodes_wf (by omega) (Or.inr b58_h31)
